import Mathlib

/-
Verification of the tabular reinforcement-learning notebook
(value iteration, policy extraction, Q-learning, policy evaluation)
against its specification.  Machine reals are modelled as exact
rationals; the gym environment is modelled as an explicit state
machine; the random draws consumed by epsilon-greedy exploration are
modelled as injected streams, following the design note of the spec.
-/

attribute [local semireducible] Rat.add Rat.mul Rat.inv Rat.sub Rat.ofScientific

/-- Maximum of a list of rationals, mirroring numpy max over a
nonempty array; the empty list is given the junk value 0. -/
def listMax : List ℚ → ℚ
  | [] => 0
  | x :: xs => xs.foldl max x

/-- Helper for argmaxIdx: scans the tail, keeping the best index and
value seen so far; a strictly larger value replaces the incumbent, so
the first occurrence of the maximum wins. -/
def argmaxAux : List ℚ → ℕ → ℕ → ℚ → ℕ
  | [], _, bi, _ => bi
  | x :: xs, i, bi, bv => if bv < x then argmaxAux xs (i + 1) i x else argmaxAux xs (i + 1) bi bv

/-- Index of the first occurrence of the maximum of a list, mirroring
numpy argmax (ties are broken toward the lowest index); the empty
list is given the junk value 0. -/
def argmaxIdx : List ℚ → ℕ
  | [] => 0
  | x :: xs => argmaxAux xs 1 0 x

/-- A finite Markov decision process as exposed by the gym
environment to value iteration: a state count (observation_space.n),
an action count (action_space.n), and for every state and action the
transition list env.unwrapped.P[s][a] of tuples
(probability, next state, reward, done). -/
structure MDP where
  nS : ℕ
  nA : ℕ
  P : ℕ → ℕ → List (ℚ × ℕ × ℚ × Bool)

/-- Convergence threshold of value_iteration, the literal eps = 1e-30
of the code, as an exact rational. -/
def epsVI : ℚ := 1 / 10 ^ 30

/-- Iteration cap of value_iteration, the literal max_iterations of
the code. -/
def max_iterations : ℕ := 100000

/-- Loop of value_iteration exactly as the code stands, with the
update block left unimplemented: each sweep sets delta to 0, performs
no update, and then breaks as soon as delta is below epsVI, reporting
the one-based iteration count. -/
def viLoopAsis : ℕ → ℕ → List ℚ → List ℚ × Option ℕ
  | 0, _, v => (v, none)
  | k + 1, i, v =>
    let delta : ℚ := 0
    if delta < epsVI then (v, some (i + 1)) else viLoopAsis k (i + 1) v

/-- value_iteration exactly as the code stands: the value table is
initialized to zeros over the state count and the loop body is the
unimplemented stub, so no backup is ever computed.  The second
component records the reported convergence iteration, none meaning
the loop exhausted max_iterations without the convergence message. -/
def value_iteration_asis (m : MDP) (γ : ℚ) : List ℚ × Option ℕ :=
  viLoopAsis max_iterations 0 (List.replicate m.nS 0)

/-- Modelled from the spec: the backed-up value of one action, the
expected value Q(s,a) = sum over tuples (p, next, r, done) of
p * (r + discount * V(next) * (1 - done)); the update block of
value_iteration that computes it is an unimplemented stub in the
code. -/
def backupL (m : MDP) (γ : ℚ) (v : List ℚ) (s a : ℕ) : ℚ :=
  ((m.P s a).map (fun tr => tr.1 * (tr.2.2.1 + γ * v.getD tr.2.1 0 * (if tr.2.2.2 then 0 else 1)))).sum

/-- Modelled from the spec: the new value of one state in a sweep,
the maximum over actions of the backed-up value. -/
def sweepVal (m : MDP) (γ : ℚ) (v : List ℚ) (s : ℕ) : ℚ :=
  listMax ((List.range m.nA).map (backupL m γ v s))

/-- Modelled from the spec: one full synchronous sweep of value
iteration, computing every new state value from the old table. -/
def bellman_sweep (m : MDP) (γ : ℚ) (v : List ℚ) : List ℚ :=
  (List.range m.nS).map (sweepVal m γ v)

/-- Modelled from the spec: the convergence measure of a sweep, the
maximum over states of the absolute per-state change. -/
def sweepDelta (m : MDP) (γ : ℚ) (v : List ℚ) : ℚ :=
  listMax ((List.range m.nS).map (fun s => |sweepVal m γ v s - v.getD s 0|))

/-- Loop of value_iteration with the unimplemented update block
modelled from the spec: each remaining iteration performs one sweep,
measures delta, and stops reporting the one-based iteration count as
soon as delta is below the tolerance. -/
def viLoop (m : MDP) (γ tol : ℚ) : ℕ → ℕ → List ℚ → List ℚ × Option ℕ
  | 0, _, v => (v, none)
  | k + 1, i, v =>
    let v2 := bellman_sweep m γ v
    let delta := sweepDelta m γ v
    if delta < tol then (v2, some (i + 1)) else viLoop m γ tol k (i + 1) v2

/-- value_iteration with the stub update block modelled from the
spec: the value table starts at zero for every state and the loop
runs up to max_iterations sweeps with tolerance epsVI. -/
def value_iteration (m : MDP) (γ : ℚ) : List ℚ × Option ℕ :=
  viLoop m γ epsVI max_iterations 0 (List.replicate m.nS 0)

/-- The value table obtained after n synchronous sweeps starting from
the all-zero table. -/
def sweepIter (m : MDP) (γ : ℚ) (n : ℕ) : List ℚ :=
  (bellman_sweep m γ)^[n] (List.replicate m.nS 0)

/-- One step of policy extraction, threading the value-table array
(the Python heap cell that extract_policy reads) and appending the
greedy action of one state to the policy built so far. -/
def extract_policy_step (m : MDP) (γ : ℚ) (vp : List ℚ × List ℕ) (s : ℕ) : List ℚ × List ℕ :=
  (vp.1, vp.2 ++ [argmaxIdx ((List.range m.nA).map (backupL m γ vp.1 s))])

/-- Modelled from the spec: extract_policy, whose per-state loop body
is an unimplemented stub in the code, computes for each state the
backed-up value of every action under the final value table and
selects the argmax action with lowest-index tie-break.  The result
pairs the value-table array after the call with the fresh policy
array, making any mutation of the input observable. -/
def extract_policy (m : MDP) (γ : ℚ) (v : List ℚ) : List ℚ × List ℕ :=
  (List.range m.nS).foldl (extract_policy_step m γ) (v, [])

/-- Python runtime errors that the notebook code can raise. -/
inductive PyErr where
  | nameError
  deriving DecidableEq

/-- choose_action exactly as the code stands: the epsilon-greedy
block is an unimplemented stub, so the local variable named action is
never assigned; the trailing return statement therefore looks up an
unbound local, which raises NameError. -/
def choose_action (q : List ℚ) (eps : ℚ) (num_actions : ℕ) : Except PyErr ℕ :=
  let action : Option ℕ := none
  match action with
  | some a => Except.ok a
  | none => Except.error PyErr.nameError

/-- Modelled from the spec: epsilon-greedy action selection, whose
body is an unimplemented stub in the code.  The uniform draw u and
the random action ra are injected by the caller, following the design
note of the spec; with u below eps the random action (reduced into
range) is returned, otherwise the greedy argmax of the Q-row with
lowest-index tie-break. -/
def choose_action_model (q : List ℚ) (eps : ℚ) (num_actions : ℕ) (u : ℚ) (ra : ℕ) : ℕ :=
  if u < eps then ra % num_actions else argmaxIdx q

/-- A step/reset environment as used by q_learning and
evaluate_policy: a state count, an action count, a reset returning
the start observation, and a step returning the next observation,
the reward and the done flag.  The internal state S threads the
simulation (including any pseudo-randomness of a stochastic
environment) across resets and steps. -/
structure StepEnv (S : Type) where
  nS : ℕ
  nA : ℕ
  reset : S → S × ℕ
  step : S → ℕ → S × ℕ × ℚ × Bool

/-- One recorded transition of a Q-learning episode:
(state, action, reward, next state, done). -/
abbrev QStep := ℕ × ℕ × ℚ × ℕ × Bool

/-- Maximum over the actions of one Q-table row. -/
def maxRow (q : ℕ → ℕ → ℚ) (nA s : ℕ) : ℚ :=
  listMax ((List.range nA).map (q s))

/-- Modelled from the spec: the Q-learning update, whose block is an
unimplemented stub in the code: the visited entry becomes
Q(s,a) + alpha * (r + gamma * max Q(next,·) * (1 - done) - Q(s,a))
and every other entry is unchanged. -/
def qUpdate (α γ : ℚ) (nA : ℕ) (q : ℕ → ℕ → ℚ) (s a : ℕ) (r : ℚ) (s2 : ℕ) (dn : Bool) : ℕ → ℕ → ℚ :=
  fun s0 a0 =>
    if s0 = s ∧ a0 = a then
      q s a + α * (r + γ * maxRow q nA s2 * (if dn then 0 else 1) - q s a)
    else q s0 a0

/-- The Q-learning update applied to one recorded transition. -/
def stepUpd (α γ : ℚ) (nA : ℕ) (q : ℕ → ℕ → ℚ) (st : QStep) : ℕ → ℕ → ℚ :=
  qUpdate α γ nA q st.1 st.2.1 st.2.2.1 st.2.2.2.1 st.2.2.2.2

/-- Result of one Q-learning episode: the Q-table, the environment
state, the count of random draws consumed, the accumulated episode
reward, whether the episode ended with done (as opposed to step
truncation), the number of environment steps taken, and the recorded
transitions in order. -/
structure EpResult (S : Type) where
  q : ℕ → ℕ → ℚ
  es : S
  t : ℕ
  total : ℚ
  ended : Bool
  steps : ℕ
  trace : List QStep

/-- Inner loop of q_learning over one episode, as the code stands
with the two stub blocks (action selection and Q-update) modelled
from the spec: at each of up to the remaining steps, choose an action
epsilon-greedily from the current Q-row, step the environment, add
the reward to the episode total, apply the Q-update, and stop early
when the environment reports done. -/
def runEpisode {S : Type} (env : StepEnv S) (α γ ε : ℚ) (u : ℕ → ℚ) (ra : ℕ → ℕ) :
    ℕ → ℕ → ℚ → (ℕ → ℕ → ℚ) → S → ℕ → EpResult S
  | 0, _, total, q, es, t => ⟨q, es, t, total, false, 0, []⟩
  | k + 1, s, total, q, es, t =>
    let a := choose_action_model ((List.range env.nA).map (q s)) ε env.nA (u t) (ra t)
    let out := env.step es a
    let es2 := out.1
    let s2 := out.2.1
    let r := out.2.2.1
    let dn := out.2.2.2
    let q2 := qUpdate α γ env.nA q s a r s2 dn
    let total2 := total + r
    if dn then ⟨q2, es2, t + 1, total2, true, 1, [(s, a, r, s2, dn)]⟩
    else
      let res := runEpisode env α γ ε u ra k s2 total2 q2 es2 (t + 1)
      ⟨res.q, res.es, res.t, res.total, res.ended, res.steps + 1, (s, a, r, s2, dn) :: res.trace⟩

/-- Book-keeping summary of one finished episode: whether it ended
with done, its accumulated reward, and its step count. -/
structure EpSummary where
  ended : Bool
  total : ℚ
  steps : ℕ
  deriving DecidableEq

/-- State of a whole q_learning run: the Q-table, the environment
state, the count of random draws consumed, the total_reward_list of
the code (appended to only when an episode ends with done), the
per-episode summaries, and the concatenated transition trace. -/
structure RunState (S : Type) where
  q : ℕ → ℕ → ℚ
  es : S
  t : ℕ
  rewards : List ℚ
  summaries : List EpSummary
  trace : List QStep

/-- Outer loop of q_learning over episodes: each episode resets the
environment, runs the inner loop with step cap tmax, and appends the
episode reward to the reward list exactly when the episode ended
with done, as the literal code does. -/
def runEpisodes {S : Type} (env : StepEnv S) (α γ ε : ℚ) (tmax : ℕ) (u : ℕ → ℚ) (ra : ℕ → ℕ) :
    ℕ → RunState S → RunState S
  | 0, st => st
  | n + 1, st =>
    let r0 := env.reset st.es
    let ep := runEpisode env α γ ε u ra tmax r0.2 0 st.q r0.1 st.t
    runEpisodes env α γ ε tmax u ra n
      ⟨ep.q, ep.es, ep.t,
       if ep.ended then st.rewards ++ [ep.total] else st.rewards,
       st.summaries ++ [⟨ep.ended, ep.total, ep.steps⟩],
       st.trace ++ ep.trace⟩

/-- Full q_learning run as the code stands (stub blocks modelled from
the spec): the Q-table starts at zero for every entry and persists
across the iter_max episodes; es0 is the initial environment state. -/
def q_learning_run {S : Type} (env : StepEnv S) (α γ ε : ℚ) (iter_max t_max : ℕ)
    (u : ℕ → ℚ) (ra : ℕ → ℕ) (es0 : S) : RunState S :=
  runEpisodes env α γ ε t_max u ra iter_max ⟨fun _ _ => 0, es0, 0, [], [], []⟩

/-- q_learning as the code stands: after the episode loop it returns
only the per-state argmax of the learned Q-table (the literal
np.argmax over axis 1), not a pair with the reward history. -/
def q_learning {S : Type} (env : StepEnv S) (α γ ε : ℚ) (iter_max t_max : ℕ)
    (u : ℕ → ℚ) (ra : ℕ → ℕ) (es0 : S) : List ℕ :=
  (List.range env.nS).map
    (fun s => argmaxIdx ((List.range env.nA).map ((q_learning_run env α γ ε iter_max t_max u ra es0).q s)))

/-- Inner while-True loop of evaluate_policy as the code stands: step
the environment with the action the policy assigns to the current
observation, accumulate the reward, and stop only when the
environment reports done.  The loop has no step cap, so it is given
fuel; none means the loop has not finished within the fuel. -/
def evalLoop {S : Type} (env : StepEnv S) (pol : List ℕ) :
    ℕ → S → ℕ → ℚ → Option (ℚ × S)
  | 0, _, _, _ => none
  | f + 1, es, obs, total =>
    let out := env.step es (pol.getD obs 0)
    let total2 := total + out.2.2.1
    if out.2.2.2 then some (total2, out.1) else evalLoop env pol f out.1 out.2.1 total2

/-- evaluate_policy as the code stands: reset the environment once,
then run a single episode with no step cap and return its total
reward (paired with the environment state after the call); none
means the single episode has not terminated within the fuel. -/
def evaluate_policy {S : Type} (env : StepEnv S) (pol : List ℕ) (fuel : ℕ) (es0 : S) :
    Option (ℚ × S) :=
  let r0 := env.reset es0
  evalLoop env pol fuel r0.1 r0.2 0

/-- The list of rewards collected along the single rollout that
evaluate_policy performs, with the same fuel convention. -/
def rolloutRewards {S : Type} (env : StepEnv S) (pol : List ℕ) :
    ℕ → S → ℕ → Option (List ℚ × S)
  | 0, _, _ => none
  | f + 1, es, obs =>
    let out := env.step es (pol.getD obs 0)
    if out.2.2.2 then some ([out.2.2.1], out.1)
    else (rolloutRewards env pol f out.1 out.2.1).map (fun p => (out.2.2.1 :: p.1, p.2))

/-- Divergence predicate: evaluate_policy never returns, whatever
fuel it is given. -/
def evaluate_policy_diverges {S : Type} (env : StepEnv S) (pol : List ℕ) (es0 : S) : Prop :=
  ∀ fuel : ℕ, evaluate_policy env pol fuel es0 = none

/-- One policy-evaluation episode as the claim describes it: up to
max_steps steps, stopping early on done, returning the accumulated
reward (a truncated episode contributes its partial total) and the
environment state after the episode. -/
def evalEpisodeCapped {S : Type} (env : StepEnv S) (pol : List ℕ) :
    ℕ → S → ℕ → ℚ → ℚ × S
  | 0, es, _, total => (total, es)
  | f + 1, es, obs, total =>
    let out := env.step es (pol.getD obs 0)
    let total2 := total + out.2.2.1
    if out.2.2.2 then (total2, out.1) else evalEpisodeCapped env pol f out.1 out.2.1 total2

/-- The claim-shaped evaluate_policy, written from the words of the
spec contract for comparison with the code: run episode_count
episodes, each starting with a reset and capped at max_steps, and
return the mean of the per-episode totals together with the final
environment state. -/
def evaluate_policy_claim {S : Type} (env : StepEnv S) (pol : List ℕ)
    (episode_count max_steps : ℕ) (es0 : S) : ℚ × S :=
  let run := (List.range episode_count).foldl
    (fun acc _ =>
      let r0 := env.reset acc.2
      let ep := evalEpisodeCapped env pol max_steps r0.1 r0.2 0
      (acc.1 + ep.1, ep.2))
    ((0 : ℚ), es0)
  (run.1 / episode_count, run.2)

/-- Property of a selection index: it is in range, it attains the
maximum of the list, and every earlier position holds a strictly
smaller value, so on exact ties the lowest index is the one
selected. -/
def isLeastArgmax (l : List ℚ) (i : ℕ) : Prop :=
  i < l.length ∧ (∀ j, j < l.length → l.getD j 0 ≤ l.getD i 0) ∧
    ∀ j, j < i → l.getD j 0 < l.getD i 0

lemma argmaxAux_least : ∀ (xs pre : List ℚ) (bi : ℕ),
    bi < pre.length →
    (∀ j, j < pre.length → pre.getD j 0 ≤ pre.getD bi 0) →
    (∀ j, j < bi → pre.getD j 0 < pre.getD bi 0) →
    isLeastArgmax (pre ++ xs) (argmaxAux xs pre.length bi (pre.getD bi 0)) := by
  intro xs
  induction xs with
  | nil =>
    intro pre bi hbi h1 h2
    refine ⟨by simpa using hbi, ?_, ?_⟩
    · intro j hj
      simp only [List.append_nil] at hj ⊢
      exact h1 j hj
    · intro j hj
      simp only [List.append_nil]
      exact h2 j hj
  | cons x xs ih =>
    intro pre bi hbi h1 h2
    have hpre : (pre ++ [x]).length = pre.length + 1 := by simp
    have hgetx : (pre ++ [x]).getD pre.length 0 = x := by
      rw [List.getD_append_right _ _ _ _ (le_refl _)]
      simp
    have hget : ∀ j, j < pre.length → (pre ++ [x]).getD j 0 = pre.getD j 0 := by
      intro j hj
      exact List.getD_append _ _ _ _ hj
    have hassoc : (pre ++ [x]) ++ xs = pre ++ (x :: xs) := by simp
    by_cases hlt : pre.getD bi 0 < x
    · have step : argmaxAux (x :: xs) pre.length bi (pre.getD bi 0)
          = argmaxAux xs (pre.length + 1) pre.length x := by
        simp only [argmaxAux]
        rw [if_pos hlt]
      have hc1 : ∀ j, j < (pre ++ [x]).length →
          (pre ++ [x]).getD j 0 ≤ (pre ++ [x]).getD pre.length 0 := by
        intro j hj
        rw [hgetx]
        rcases Nat.lt_succ_iff_lt_or_eq.mp (by rw [hpre] at hj; exact hj) with hj2 | hj2
        · rw [hget j hj2]
          exact le_of_lt (lt_of_le_of_lt (h1 j hj2) hlt)
        · subst hj2
          rw [hgetx]
      have hc2 : ∀ j, j < pre.length → (pre ++ [x]).getD j 0 < (pre ++ [x]).getD pre.length 0 := by
        intro j hj
        rw [hgetx, hget j hj]
        exact lt_of_le_of_lt (h1 j hj) hlt
      have hres := ih (pre ++ [x]) pre.length (by simp) hc1 hc2
      rw [hassoc, hgetx, hpre] at hres
      rw [step]
      exact hres
    · have step : argmaxAux (x :: xs) pre.length bi (pre.getD bi 0)
          = argmaxAux xs (pre.length + 1) bi (pre.getD bi 0) := by
        simp only [argmaxAux]
        rw [if_neg hlt]
      have hbix : (pre ++ [x]).getD bi 0 = pre.getD bi 0 := hget bi hbi
      have hc1 : ∀ j, j < (pre ++ [x]).length →
          (pre ++ [x]).getD j 0 ≤ (pre ++ [x]).getD bi 0 := by
        intro j hj
        rw [hbix]
        rcases Nat.lt_succ_iff_lt_or_eq.mp (by rw [hpre] at hj; exact hj) with hj2 | hj2
        · rw [hget j hj2]
          exact h1 j hj2
        · subst hj2
          rw [hgetx]
          exact le_of_not_lt hlt
      have hc2 : ∀ j, j < bi → (pre ++ [x]).getD j 0 < (pre ++ [x]).getD bi 0 := by
        intro j hj
        rw [hbix, hget j (lt_trans hj hbi)]
        exact h2 j hj
      have hres := ih (pre ++ [x]) bi (by rw [hpre]; omega) hc1 hc2
      rw [hassoc, hbix, hpre] at hres
      rw [step]
      exact hres

lemma argmaxIdx_least (l : List ℚ) (hl : 0 < l.length) : isLeastArgmax l (argmaxIdx l) := by
  rcases l with _ | ⟨x, xs⟩
  · simp at hl
  · have hc1 : ∀ j, j < List.length [x] → List.getD [x] j 0 ≤ List.getD [x] 0 0 := by
      intro j hj
      have hj0 : j = 0 := by simpa using hj
      subst hj0
      exact le_refl _
    have hc2 : ∀ j, j < 0 → List.getD [x] j 0 < List.getD [x] 0 0 := by
      intro j hj
      exact absurd hj (Nat.not_lt_zero j)
    have h := argmaxAux_least xs [x] 0 (by simp) hc1 hc2
    simpa [argmaxIdx] using h

lemma getD_map_range {α : Type} (f : ℕ → α) (n s : ℕ) (h : s < n) (d : α) :
    ((List.range n).map f).getD s d = f s := by
  simp [List.getD_eq_getElem?_getD, List.getElem?_map, List.getElem?_range, h]

lemma foldl_extract_step (m : MDP) (γ : ℚ) (v : List ℚ) :
    ∀ (ls : List ℕ) (p0 : List ℕ),
      ls.foldl (extract_policy_step m γ) (v, p0)
        = (v, p0 ++ ls.map (fun s => argmaxIdx ((List.range m.nA).map (backupL m γ v s)))) := by
  intro ls
  induction ls with
  | nil => intro p0; simp
  | cons s ls ih =>
    intro p0
    rw [List.foldl_cons]
    have hstep : extract_policy_step m γ (v, p0) s
        = (v, p0 ++ [argmaxIdx ((List.range m.nA).map (backupL m γ v s))]) := rfl
    rw [hstep, ih]
    simp

lemma extract_policy_eq (m : MDP) (γ : ℚ) (v : List ℚ) :
    extract_policy m γ v
      = (v, (List.range m.nS).map (fun s => argmaxIdx ((List.range m.nA).map (backupL m γ v s)))) := by
  have h := foldl_extract_step m γ v (List.range m.nS) []
  simpa [extract_policy] using h

lemma viLoop_some (m : MDP) (γ tol : ℚ) :
    ∀ (k i : ℕ) (v w : List ℚ) (j : ℕ), viLoop m γ tol k i v = (w, some j) →
      i < j ∧ j ≤ i + k ∧ w = (bellman_sweep m γ)^[j - i] v ∧
      sweepDelta m γ ((bellman_sweep m γ)^[j - i - 1] v) < tol ∧
      ∀ d, d < j - i - 1 → ¬ sweepDelta m γ ((bellman_sweep m γ)^[d] v) < tol := by
  intro k
  induction k with
  | zero =>
    intro i v w j h
    simp [viLoop] at h
  | succ k ih =>
    intro i v w j h
    simp only [viLoop] at h
    by_cases hd : sweepDelta m γ v < tol
    · rw [if_pos hd] at h
      injection h with hw hj
      injection hj with hj
      subst hj
      have e1 : i + 1 - i = 1 := by omega
      have e2 : i + 1 - i - 1 = 0 := by omega
      refine ⟨by omega, by omega, ?_, ?_, ?_⟩
      · rw [e1, Function.iterate_one]
        exact hw.symm
      · rw [e2, Function.iterate_zero_apply]
        exact hd
      · intro d hdd
        omega
    · rw [if_neg hd] at h
      obtain ⟨h1, h2, h3, h4, h5⟩ := ih (i + 1) (bellman_sweep m γ v) w j h
      have e4 : j - (i + 1) + 1 = j - i := by omega
      have e5 : j - (i + 1) - 1 + 1 = j - i - 1 := by omega
      refine ⟨by omega, by omega, ?_, ?_, ?_⟩
      · rw [← e4, Function.iterate_succ_apply]
        exact h3
      · rw [← e5, Function.iterate_succ_apply]
        exact h4
      · intro d hdd
        rcases d with _ | d
        · rw [Function.iterate_zero_apply]
          exact hd
        · rw [Function.iterate_succ_apply]
          exact h5 d (by omega)

lemma viLoop_none (m : MDP) (γ tol : ℚ) :
    ∀ (k i : ℕ) (v w : List ℚ), viLoop m γ tol k i v = (w, none) →
      w = (bellman_sweep m γ)^[k] v ∧
      ∀ d, d < k → ¬ sweepDelta m γ ((bellman_sweep m γ)^[d] v) < tol := by
  intro k
  induction k with
  | zero =>
    intro i v w h
    simp only [viLoop] at h
    injection h with hw _
    exact ⟨hw.symm, by omega⟩
  | succ k ih =>
    intro i v w h
    simp only [viLoop] at h
    by_cases hd : sweepDelta m γ v < tol
    · rw [if_pos hd] at h
      injection h with _ hj
      exact absurd hj (by simp)
    · rw [if_neg hd] at h
      obtain ⟨h1, h2⟩ := ih (i + 1) (bellman_sweep m γ v) w h
      refine ⟨?_, ?_⟩
      · rw [h1, ← Function.iterate_succ_apply]
      · intro d hdd
        rcases d with _ | d
        · rw [Function.iterate_zero_apply]
          exact hd
        · rw [Function.iterate_succ_apply]
          exact h2 d (by omega)

lemma runEpisode_q_eq {S : Type} (env : StepEnv S) (α γ ε : ℚ) (u : ℕ → ℚ) (ra : ℕ → ℕ) :
    ∀ (k s : ℕ) (total : ℚ) (q : ℕ → ℕ → ℚ) (es : S) (t : ℕ),
      (runEpisode env α γ ε u ra k s total q es t).q
        = (runEpisode env α γ ε u ra k s total q es t).trace.foldl (stepUpd α γ env.nA) q := by
  intro k
  induction k with
  | zero =>
    intro s total q es t
    simp [runEpisode]
  | succ k ih =>
    intro s total q es t
    simp only [runEpisode]
    rcases hstep : env.step es (choose_action_model ((List.range env.nA).map (q s)) ε env.nA (u t) (ra t))
      with ⟨es2, s2, r, dn⟩
    rcases dn with _ | _
    · simp only [Bool.false_eq_true, if_false]
      rw [ih]
      rfl
    · simp only [if_true]
      rfl

lemma runEpisode_steps_le {S : Type} (env : StepEnv S) (α γ ε : ℚ) (u : ℕ → ℚ) (ra : ℕ → ℕ) :
    ∀ (k s : ℕ) (total : ℚ) (q : ℕ → ℕ → ℚ) (es : S) (t : ℕ),
      (runEpisode env α γ ε u ra k s total q es t).steps ≤ k := by
  intro k
  induction k with
  | zero =>
    intro s total q es t
    simp [runEpisode]
  | succ k ih =>
    intro s total q es t
    simp only [runEpisode]
    rcases hstep : env.step es (choose_action_model ((List.range env.nA).map (q s)) ε env.nA (u t) (ra t))
      with ⟨es2, s2, r, dn⟩
    rcases dn with _ | _
    · simp only [Bool.false_eq_true, if_false]
      exact Nat.succ_le_succ (ih s2 (total + r) (qUpdate α γ env.nA q s _ r s2 false) es2 (t + 1))
    · simp only [if_true]
      omega

lemma runEpisodes_q_eq {S : Type} (env : StepEnv S) (α γ ε : ℚ) (tmax : ℕ) (u : ℕ → ℚ)
    (ra : ℕ → ℕ) (q0 : ℕ → ℕ → ℚ) :
    ∀ (n : ℕ) (st : RunState S), st.q = st.trace.foldl (stepUpd α γ env.nA) q0 →
      (runEpisodes env α γ ε tmax u ra n st).q
        = (runEpisodes env α γ ε tmax u ra n st).trace.foldl (stepUpd α γ env.nA) q0 := by
  intro n
  induction n with
  | zero =>
    intro st h
    simpa [runEpisodes] using h
  | succ n ih =>
    intro st h
    simp only [runEpisodes]
    apply ih
    simp only [List.foldl_append]
    rw [runEpisode_q_eq, h]

lemma runEpisodes_rewards_eq {S : Type} (env : StepEnv S) (α γ ε : ℚ) (tmax : ℕ) (u : ℕ → ℚ)
    (ra : ℕ → ℕ) :
    ∀ (n : ℕ) (st : RunState S),
      st.rewards = st.summaries.filterMap (fun e => if e.ended then some e.total else none) →
      (runEpisodes env α γ ε tmax u ra n st).rewards
        = (runEpisodes env α γ ε tmax u ra n st).summaries.filterMap
            (fun e => if e.ended then some e.total else none) := by
  intro n
  induction n with
  | zero =>
    intro st h
    simpa [runEpisodes] using h
  | succ n ih =>
    intro st h
    simp only [runEpisodes]
    apply ih
    simp only [List.filterMap_append, ← h]
    rcases hend : (runEpisode env α γ ε u ra tmax (env.reset st.es).2 0 st.q (env.reset st.es).1 st.t).ended
      with _ | _
    · simp [hend]
    · simp [hend]

lemma runEpisodes_steps_le {S : Type} (env : StepEnv S) (α γ ε : ℚ) (tmax : ℕ) (u : ℕ → ℚ)
    (ra : ℕ → ℕ) :
    ∀ (n : ℕ) (st : RunState S), (∀ e ∈ st.summaries, e.steps ≤ tmax) →
      ∀ e ∈ (runEpisodes env α γ ε tmax u ra n st).summaries, e.steps ≤ tmax := by
  intro n
  induction n with
  | zero =>
    intro st h
    simpa [runEpisodes] using h
  | succ n ih =>
    intro st h
    simp only [runEpisodes]
    apply ih
    intro e he
    rcases List.mem_append.mp he with h1 | h1
    · exact h e h1
    · have he2 : e = ⟨(runEpisode env α γ ε u ra tmax (env.reset st.es).2 0 st.q (env.reset st.es).1 st.t).ended,
          (runEpisode env α γ ε u ra tmax (env.reset st.es).2 0 st.q (env.reset st.es).1 st.t).total,
          (runEpisode env α γ ε u ra tmax (env.reset st.es).2 0 st.q (env.reset st.es).1 st.t).steps⟩ := by
        simpa using h1
      rw [he2]
      exact runEpisode_steps_le env α γ ε u ra tmax _ 0 st.q _ st.t

lemma evalLoop_rollout {S : Type} (env : StepEnv S) (pol : List ℕ) :
    ∀ (f : ℕ) (es : S) (obs : ℕ) (total : ℚ),
      evalLoop env pol f es obs total
        = (rolloutRewards env pol f es obs).map (fun p => (total + p.1.sum, p.2)) := by
  intro f
  induction f with
  | zero =>
    intro es obs total
    simp [evalLoop, rolloutRewards]
  | succ f ih =>
    intro es obs total
    simp only [evalLoop, rolloutRewards]
    rcases hstep : env.step es (pol.getD obs 0) with ⟨es2, s2, r, dn⟩
    rcases dn with _ | _
    · simp only [Bool.false_eq_true, if_false]
      rw [ih]
      rcases hr : rolloutRewards env pol f es2 s2 with _ | ⟨l, es3⟩
      · simp
      · simp [add_assoc]
    · simp

/-- Terminal one-state MDP whose only transition has reward zero and
the done flag set; its unique optimal value is zero, so modelled
value iteration converges in its first sweep. -/
def m0 : MDP := ⟨1, 1, fun _ _ => [(1, 0, 0, true)]⟩

/-- One-state two-action MDP whose two actions have identical
transitions, producing an exact tie between their backed-up values. -/
def mTie : MDP := ⟨1, 2, fun _ _ => [(1, 0, 1, true)]⟩

/-- Degenerate MDP with zero states and zero actions, an invalid
configuration under the spec. -/
def mBad : MDP := ⟨0, 0, fun _ _ => []⟩

/-- One-state one-action environment that never reports done and
always yields reward zero: the canonical never-terminating
environment. -/
def neverEnv : StepEnv Unit := ⟨1, 1, fun _ => ((), 0), fun _ _ => ((), 0, 0, false)⟩

/-- One-state one-action environment that terminates immediately with
a reward that differs between the first episode and later ones: its
internal counter advances on each reset, so the first episode yields
reward 1 and the second yields reward 3. -/
def envC : StepEnv ℕ := ⟨1, 1, fun k => (k + 1, 0), fun k _ => (k, 0, if k ≤ 1 then 1 else 3, true)⟩

/-- Constant stream of uniform draws equal to one, making
epsilon-greedy always pick the greedy branch for epsilon below one. -/
def uOne : ℕ → ℚ := fun _ => 1

/-- Constant stream of random action draws equal to zero. -/
def raZero : ℕ → ℕ := fun _ => 0

lemma evalLoop_neverEnv : ∀ (f obs : ℕ) (total : ℚ),
    evalLoop neverEnv [0] f () obs total = none := by
  intro f
  induction f with
  | zero =>
    intro obs total
    rfl
  | succ f ih =>
    intro obs total
    simp only [evalLoop]
    exact ih 0 _

lemma viLoop_length (m : MDP) (γ tol : ℚ) :
    ∀ (k i : ℕ) (v : List ℚ), v.length = m.nS → ((viLoop m γ tol k i v).1).length = m.nS := by
  intro k
  induction k with
  | zero =>
    intro i v h
    simpa [viLoop] using h
  | succ k ih =>
    intro i v h
    simp only [viLoop]
    by_cases hd : sweepDelta m γ v < tol
    · rw [if_pos hd]
      simp [bellman_sweep]
    · rw [if_neg hd]
      exact ih (i + 1) (bellman_sweep m γ v) (by simp [bellman_sweep])

lemma viLoopAsis_first (k i : ℕ) (v : List ℚ) : viLoopAsis (k + 1) i v = (v, some (i + 1)) := by
  simp only [viLoopAsis]
  rw [if_pos]
  decide

/-- C9: as the code stands, with the update block unimplemented,
value_iteration leaves delta at zero in its first sweep, reports
convergence at iteration 1, and returns the all-zero value vector of
length equal to the state count of the environment, for every
environment and discount factor. -/
theorem value_iteration_asis_converges_trivially (m : MDP) (γ : ℚ) :
    value_iteration_asis m γ = (List.replicate m.nS 0, some 1) := by
  show viLoopAsis max_iterations 0 (List.replicate m.nS 0) = _
  have h : max_iterations = 99999 + 1 := rfl
  rw [h, viLoopAsis_first]

/-- C10: as the code stands, with the epsilon-greedy block
unimplemented, choose_action raises NameError on every input, and no
call path returns an action. -/
theorem choose_action_always_name_error (q : List ℚ) (eps : ℚ) (num_actions : ℕ) :
    choose_action q eps num_actions = Except.error PyErr.nameError ∧
    ∀ a : ℕ, choose_action q eps num_actions ≠ Except.ok a := by
  refine ⟨rfl, ?_⟩
  intro a h
  simp [choose_action] at h

/-- Witness for C10 at a concrete input: the row [1], epsilon one
half and one action still produce the NameError and no action. -/
theorem choose_action_always_name_error_witness :
    choose_action [1] (1/2) 1 = Except.error PyErr.nameError ∧
    choose_action [1] (1/2) 1 ≠ Except.ok 0 :=
  ⟨(choose_action_always_name_error [1] (1/2) 1).1,
   (choose_action_always_name_error [1] (1/2) 1).2 0⟩

/-- C1: value_iteration (with its stub update block modelled from
the spec) starts from the all-zero table, performs synchronous sweeps
in which every state receives the maximum over actions of the
backed-up value backupL, and stops at the first sweep whose maximum
absolute per-state change is below the tolerance, reporting the
one-based iteration count, running at most max_iterations sweeps. -/
theorem value_iteration_follows_bellman_sweeps (m : MDP) (γ : ℚ) :
    sweepIter m γ 0 = List.replicate m.nS 0 ∧
    (∀ v : List ℚ, bellman_sweep m γ v
      = (List.range m.nS).map (fun s => listMax ((List.range m.nA).map (backupL m γ v s)))) ∧
    (∀ (w : List ℚ) (k : ℕ), value_iteration m γ = (w, some k) →
      1 ≤ k ∧ k ≤ max_iterations ∧ w = sweepIter m γ k ∧
      sweepDelta m γ (sweepIter m γ (k - 1)) < epsVI ∧
      ∀ d, d < k - 1 → ¬ sweepDelta m γ (sweepIter m γ d) < epsVI) ∧
    (∀ w : List ℚ, value_iteration m γ = (w, none) →
      w = sweepIter m γ max_iterations ∧
      ∀ d, d < max_iterations → ¬ sweepDelta m γ (sweepIter m γ d) < epsVI) := by
  refine ⟨rfl, fun v => rfl, ?_, ?_⟩
  · intro w k h
    have h2 : viLoop m γ epsVI max_iterations 0 (List.replicate m.nS 0) = (w, some k) := h
    obtain ⟨h1, h2, h3, h4, h5⟩ := viLoop_some m γ epsVI max_iterations 0 _ w k h2
    rw [Nat.sub_zero] at h3 h4 h5
    exact ⟨h1, by omega, h3, h4, h5⟩
  · intro w h
    have h2 : viLoop m γ epsVI max_iterations 0 (List.replicate m.nS 0) = (w, none) := h
    obtain ⟨h1, h2⟩ := viLoop_none m γ epsVI max_iterations 0 _ w h2
    exact ⟨h1, h2⟩

/-- Witness for C1 at a concrete input: on the one-state terminal
MDP m0 the modelled value iteration converges in its first sweep,
and the characterization instantiates there. -/
theorem value_iteration_follows_bellman_sweeps_witness :
    value_iteration m0 1 = ([0], some 1) ∧
    (1 ≤ 1 ∧ 1 ≤ max_iterations ∧ [0] = sweepIter m0 1 1 ∧
      sweepDelta m0 1 (sweepIter m0 1 (1 - 1)) < epsVI ∧
      ∀ d, d < 1 - 1 → ¬ sweepDelta m0 1 (sweepIter m0 1 d) < epsVI) :=
  ⟨by decide, (value_iteration_follows_bellman_sweeps m0 1).2.2.1 [0] 1 (by decide)⟩

/-- C2: in q_learning (with its stub blocks modelled from the spec)
the Q-table starts at zero, and the table after a run equals the fold
of the temporal-difference update qUpdate over the recorded
transitions of all episodes in order, so the table persists across
episodes and every step updates exactly the visited entry by
Q(s,a) + alpha * (r + gamma * max Q(next,·) * (1 - done) - Q(s,a)). -/
theorem q_learning_applies_td_update {S : Type} (env : StepEnv S) (α γ ε : ℚ)
    (iter_max t_max : ℕ) (u : ℕ → ℚ) (ra : ℕ → ℕ) (es0 : S) :
    (q_learning_run env α γ ε 0 t_max u ra es0).q = (fun _ _ => 0) ∧
    (q_learning_run env α γ ε iter_max t_max u ra es0).q
      = (q_learning_run env α γ ε iter_max t_max u ra es0).trace.foldl
          (stepUpd α γ env.nA) (fun _ _ => 0) ∧
    (∀ (nA : ℕ) (q : ℕ → ℕ → ℚ) (s a : ℕ) (r : ℚ) (s2 : ℕ) (dn : Bool),
      qUpdate α γ nA q s a r s2 dn s a
        = q s a + α * (r + γ * maxRow q nA s2 * (if dn then 0 else 1) - q s a)) ∧
    (∀ (nA : ℕ) (q : ℕ → ℕ → ℚ) (s a : ℕ) (r : ℚ) (s2 : ℕ) (dn : Bool) (s0 a0 : ℕ),
      ¬ (s0 = s ∧ a0 = a) → qUpdate α γ nA q s a r s2 dn s0 a0 = q s0 a0) := by
  refine ⟨rfl, ?_, ?_, ?_⟩
  · exact runEpisodes_q_eq env α γ ε t_max u ra (fun _ _ => 0) iter_max _ rfl
  · intro nA q s a r s2 dn
    simp [qUpdate]
  · intro nA q s a r s2 dn s0 a0 h
    simp only [qUpdate]
    rw [if_neg h]

/-- Witness for C2 at a concrete input: the update leaves an entry
other than the visited pair unchanged. -/
theorem q_learning_applies_td_update_witness :
    qUpdate 1 (1/2) 1 (fun _ _ => (0:ℚ)) 0 0 1 0 true 1 0 = (fun _ _ => (0:ℚ)) 1 0 :=
  (q_learning_applies_td_update neverEnv 1 (1/2) 0 1 3 uOne raZero ()).2.2.2
    1 (fun _ _ => 0) 0 0 1 0 true 1 0 (by decide)

/-- C3 counterexample: on an environment that never reports done,
two episodes of three steps each run (two summaries are recorded)
but the reward history receives no entry at all, refuting the claim
that it holds one entry per episode including truncated ones. -/
theorem q_learning_reward_history_cex :
    (q_learning_run neverEnv 1 (1/2) 0 2 3 uOne raZero ()).summaries.length = 2 ∧
    (q_learning_run neverEnv 1 (1/2) 0 2 3 uOne raZero ()).rewards.length = 0 ∧
    (0 : ℕ) ≠ 2 := by
  refine ⟨by decide, by decide, by decide⟩

/-- C3 amended: the reward history of a q_learning run holds exactly
the accumulated rewards of the episodes that ended with done, in
order, and truncated episodes contribute nothing; the procedure
returns only the per-state argmax policy of the learned Q-table, not
a pair with the reward history. -/
theorem q_learning_reward_history_done_only {S : Type} (env : StepEnv S) (α γ ε : ℚ)
    (iter_max t_max : ℕ) (u : ℕ → ℚ) (ra : ℕ → ℕ) (es0 : S) :
    (q_learning_run env α γ ε iter_max t_max u ra es0).rewards
      = (q_learning_run env α γ ε iter_max t_max u ra es0).summaries.filterMap
          (fun e => if e.ended then some e.total else none) ∧
    q_learning env α γ ε iter_max t_max u ra es0
      = (List.range env.nS).map (fun s => argmaxIdx ((List.range env.nA).map
          ((q_learning_run env α γ ε iter_max t_max u ra es0).q s))) :=
  ⟨runEpisodes_rewards_eq env α γ ε t_max u ra iter_max _ rfl, rfl⟩

/-- C4 counterexample: on the never-terminating environment,
evaluate_policy never returns however much fuel its unbounded loop
is given, refuting the claim that it stops within a step cap. -/
theorem evaluate_policy_can_diverge_cex : evaluate_policy_diverges neverEnv [0] () := by
  intro fuel
  exact evalLoop_neverEnv fuel 0 0

/-- C4 amended: every episode of a q_learning run takes at most
max_steps_per_episode environment steps, the step cap being the only
bound; evaluate_policy has no such cap and can loop forever. -/
theorem q_learning_step_cap {S : Type} (env : StepEnv S) (α γ ε : ℚ) (iter_max t_max : ℕ)
    (u : ℕ → ℚ) (ra : ℕ → ℕ) (es0 : S) :
    ∀ e ∈ (q_learning_run env α γ ε iter_max t_max u ra es0).summaries, e.steps ≤ t_max := by
  apply runEpisodes_steps_le
  intro e he
  simp at he

/-- Witness for C4 at a concrete input: the single episode recorded
on the never-terminating environment took exactly the cap of three
steps, and the bound instantiates there. -/
theorem q_learning_step_cap_witness : (⟨false, 0, 3⟩ : EpSummary).steps ≤ 3 :=
  q_learning_step_cap neverEnv 1 (1/2) 0 1 3 uOne raZero () ⟨false, 0, 3⟩ (by decide)

/-- C5 counterexample: on an environment whose first episode yields
total reward 1 and whose second yields 3, evaluate_policy returns 1,
the total of the single episode it runs, while the claim-shaped mean
over two episodes is 2. -/
theorem evaluate_policy_single_episode_cex :
    evaluate_policy envC [0] 5 0 = some (1, 1) ∧
    evaluate_policy_claim envC [0] 2 5 0 = (2, 2) ∧ (1 : ℚ) ≠ 2 := by
  refine ⟨by decide, by decide, by decide⟩

/-- C5 amended: evaluate_policy resets the environment once and
returns the sum of the rewards collected along that single rollout
until the environment reports done; it takes no episode count, has
no step cap, and computes no mean, averaging being done by its
callers. -/
theorem evaluate_policy_single_episode {S : Type} (env : StepEnv S) (pol : List ℕ)
    (fuel : ℕ) (es0 : S) :
    evaluate_policy env pol fuel es0
      = (rolloutRewards env pol fuel (env.reset es0).1 (env.reset es0).2).map
          (fun p => (p.1.sum, p.2)) := by
  show evalLoop env pol fuel (env.reset es0).1 (env.reset es0).2 0 = _
  rw [evalLoop_rollout]
  rcases h : rolloutRewards env pol fuel (env.reset es0).1 (env.reset es0).2 with _ | p
  · simp
  · simp

/-- C6: whenever two actions have exactly equal values, the lower
index is selected: the selection made by extract_policy over
backed-up values, by the greedy branch of the modelled choose_action,
and by the argmax policy returned by q_learning is in range, attains
the maximum, and strictly exceeds every earlier entry, so an exact
tie is always resolved toward the lower action index. -/
theorem tie_break_lowest_index :
    (∀ (m : MDP) (γ : ℚ) (v : List ℚ) (s : ℕ), s < m.nS → 0 < m.nA →
      (extract_policy m γ v).2.getD s 0 = argmaxIdx ((List.range m.nA).map (backupL m γ v s)) ∧
      isLeastArgmax ((List.range m.nA).map (backupL m γ v s))
        (argmaxIdx ((List.range m.nA).map (backupL m γ v s)))) ∧
    (∀ (q : List ℚ) (ε uv : ℚ) (na rv : ℕ), ¬ uv < ε → 0 < q.length →
      choose_action_model q ε na uv rv = argmaxIdx q ∧ isLeastArgmax q (argmaxIdx q)) ∧
    (∀ (S : Type) (env : StepEnv S) (α γ ε : ℚ) (iter_max t_max : ℕ) (u : ℕ → ℚ)
      (ra : ℕ → ℕ) (es0 : S) (s : ℕ), s < env.nS → 0 < env.nA →
      (q_learning env α γ ε iter_max t_max u ra es0).getD s 0
        = argmaxIdx ((List.range env.nA).map
            ((q_learning_run env α γ ε iter_max t_max u ra es0).q s)) ∧
      isLeastArgmax ((List.range env.nA).map
          ((q_learning_run env α γ ε iter_max t_max u ra es0).q s))
        (argmaxIdx ((List.range env.nA).map
          ((q_learning_run env α γ ε iter_max t_max u ra es0).q s)))) := by
  refine ⟨?_, ?_, ?_⟩
  · intro m γ v s hs ha
    constructor
    · rw [extract_policy_eq]
      exact getD_map_range _ m.nS s hs 0
    · exact argmaxIdx_least _ (by simpa using ha)
  · intro q ε uv na rv hu hq
    constructor
    · simp only [choose_action_model]
      rw [if_neg hu]
    · exact argmaxIdx_least q hq
  · intro S env α γ ε iter_max t_max u ra es0 s hs ha
    constructor
    · exact getD_map_range _ env.nS s hs 0
    · exact argmaxIdx_least _ (by simpa using ha)

/-- Witness for C6 at concrete inputs: a two-action exact tie in the
backed-up values of mTie, the tied row [2, 5, 5] in the greedy
branch, and the argmax policy of a concrete q_learning run. -/
theorem tie_break_lowest_index_witness :
    ((extract_policy mTie 1 [0, 0]).2.getD 0 0
        = argmaxIdx ((List.range mTie.nA).map (backupL mTie 1 [0, 0] 0)) ∧
      isLeastArgmax ((List.range mTie.nA).map (backupL mTie 1 [0, 0] 0))
        (argmaxIdx ((List.range mTie.nA).map (backupL mTie 1 [0, 0] 0)))) ∧
    (choose_action_model [2, 5, 5] (1/2) 3 1 0 = argmaxIdx [2, 5, 5] ∧
      isLeastArgmax [2, 5, 5] (argmaxIdx [2, 5, 5])) ∧
    ((q_learning neverEnv 1 (1/2) 0 1 3 uOne raZero ()).getD 0 0
        = argmaxIdx ((List.range neverEnv.nA).map
            ((q_learning_run neverEnv 1 (1/2) 0 1 3 uOne raZero ()).q 0)) ∧
      isLeastArgmax ((List.range neverEnv.nA).map
          ((q_learning_run neverEnv 1 (1/2) 0 1 3 uOne raZero ()).q 0))
        (argmaxIdx ((List.range neverEnv.nA).map
          ((q_learning_run neverEnv 1 (1/2) 0 1 3 uOne raZero ()).q 0)))) :=
  ⟨tie_break_lowest_index.1 mTie 1 [0, 0] 0 (by decide) (by decide),
   tie_break_lowest_index.2.1 [2, 5, 5] (1/2) 1 3 0 (by decide) (by decide),
   tie_break_lowest_index.2.2 Unit neverEnv 1 (1/2) 0 1 3 uOne raZero () 0 (by decide) (by decide)⟩

/-- C7 counterexample: invalid configurations are silently accepted:
the literal value_iteration runs to completion on an MDP with zero
states and zero actions and with discount 2, the modelled one does
the same with discount 2, and q_learning completes a run with
exploration rate 2, all returning normal results with no
ConfigurationError reported. -/
theorem no_config_validation_cex :
    value_iteration_asis mBad 2 = ([], some 1) ∧
    value_iteration m0 2 = ([0], some 1) ∧
    q_learning neverEnv 1 1 2 1 1 uOne raZero () = [0] := by
  refine ⟨by decide, by decide, by decide⟩

/-- C7 amended: no entry procedure validates its configuration:
for every discount, exploration rate and state or action count,
including invalid ones, value_iteration (literal and modelled) and
q_learning proceed with their computation and return a normally
shaped result, and no ConfigurationError mechanism exists. -/
theorem no_config_validation {S : Type} (m : MDP) (γ : ℚ) (env : StepEnv S) (α γq ε : ℚ)
    (iter_max t_max : ℕ) (u : ℕ → ℚ) (ra : ℕ → ℕ) (es0 : S) :
    (value_iteration m γ).1.length = m.nS ∧
    (value_iteration_asis m γ).1.length = m.nS ∧
    (q_learning env α γq ε iter_max t_max u ra es0).length = env.nS := by
  refine ⟨?_, ?_, ?_⟩
  · exact viLoop_length m γ epsVI max_iterations 0 _ (by simp)
  · show ((viLoopAsis max_iterations 0 (List.replicate m.nS 0)).1).length = m.nS
    have h : max_iterations = 99999 + 1 := rfl
    rw [h, viLoopAsis_first]
    simp
  · simp [q_learning]

/-- C8: extract_policy is pure and idempotent: it returns the value
table it was given unchanged (the transition model, a function, is
immutable by construction), and calling it again on the returned
value table yields exactly the same result. -/
theorem extract_policy_pure_idempotent (m : MDP) (γ : ℚ) (v : List ℚ) :
    (extract_policy m γ v).1 = v ∧
    extract_policy m γ ((extract_policy m γ v).1) = extract_policy m γ v := by
  have h1 : (extract_policy m γ v).1 = v := by rw [extract_policy_eq]
  exact ⟨h1, by rw [h1]⟩
